import Mathlib

/-!
Shallow embedding of the poseidon-transcript repository: the Poseidon
permutation (`src/poseidon/mod.rs`), the SAFE sponge (`src/sponge.rs`) and the
Fiat-Shamir transcript (`src/transcript.rs`), together with the SHA3-256
primitive used by the sponge's tag derivation (the `sha3` crate dependency).

Machine integers are modelled as `Nat` with explicit `% 2 ^ w` where Rust
truncates; fallible operations (slice indexing, `unwrap`) return `Option`.
-/

set_option maxRecDepth 1000000

/- ## SHA3-256 (the `sha3` crate dependency of `compute_tag`) -/

/-- Rotate a 64-bit lane left by `n` bits (`n < 64`). -/
def rotl64 (x n : Nat) : Nat := ((x <<< n) ||| (x >>> (64 - n))) % 2 ^ 64

/-- Read lane `i` of a Keccak state (25 lanes), 0 when out of range. -/
def lane (s : List Nat) (i : Nat) : Nat := s.getD i 0

/-- Rotation offsets of the rho step, row `y` of the table holding the
offsets of lanes `x + 5 * y` for `x = 0..4`. -/
def rhoRows : List (List Nat) :=
  [[0, 1, 62, 28, 27]
  ,[36, 44, 6, 55, 20]
  ,[3, 10, 43, 25, 39]
  ,[41, 45, 15, 21, 8]
  ,[18, 2, 61, 56, 14]]

/-- Rotation offsets of the rho step, indexed by `x + 5 * y`. -/
def rhoOffsets : List Nat := rhoRows.flatten

/-- Round constants of the iota step of Keccak-f[1600]. -/
def keccakRC : List Nat :=
  [0x0000000000000001, 0x0000000000008082, 0x800000000000808a, 0x8000000080008000,
   0x000000000000808b, 0x0000000080000001, 0x8000000080008081, 0x8000000000008009,
   0x000000000000008a, 0x0000000000000088, 0x0000000080008009, 0x000000008000000a,
   0x000000008000808b, 0x800000000000008b, 0x8000000000008089, 0x8000000000008003,
   0x8000000000008002, 0x8000000000000080, 0x000000000000800a, 0x800000008000000a,
   0x8000000080008081, 0x8000000000008080, 0x0000000080000001, 0x8000000080008008]

/-- Theta step. -/
def theta (s : List Nat) : List Nat :=
  let c := fun x => lane s x ^^^ lane s (x + 5) ^^^ lane s (x + 10) ^^^
                    lane s (x + 15) ^^^ lane s (x + 20)
  let d := fun x => c ((x + 4) % 5) ^^^ rotl64 (c ((x + 1) % 5)) 1
  (List.range 25).map (fun i => lane s i ^^^ d (i % 5))

/-- Combined rho and pi steps. -/
def rhoPi (s : List Nat) : List Nat :=
  (List.range 25).foldl
    (fun b i =>
      let x := i % 5
      let y := i / 5
      b.set (y + 5 * ((2 * x + 3 * y) % 5)) (rotl64 (lane s i) (rhoOffsets.getD i 0)))
    (List.replicate 25 0)

/-- Chi step. -/
def chi (s : List Nat) : List Nat :=
  (List.range 25).map (fun i =>
    let x := i % 5
    let y := i / 5
    lane s i ^^^ ((lane s ((x + 1) % 5 + 5 * y) ^^^ (2 ^ 64 - 1)) &&&
                  lane s ((x + 2) % 5 + 5 * y)))

/-- One Keccak round: theta, rho, pi, chi, iota. -/
def keccakRound (s : List Nat) (rc : Nat) : List Nat :=
  let s := chi (rhoPi (theta s))
  match s with
  | [] => []
  | a :: rest => (a ^^^ rc) :: rest

/-- The Keccak-f[1600] permutation: 24 rounds. -/
def keccakF (s : List Nat) : List Nat := keccakRC.foldl keccakRound s

/-- Decode a little-endian byte list into a natural number. -/
def natOfBytesLE (bs : List Nat) : Nat := bs.foldr (fun b acc => b + 256 * acc) 0

/-- XOR one 136-byte rate block into the first 17 lanes of the state. -/
def xorBlock (s block : List Nat) : List Nat :=
  (List.range 25).map (fun i =>
    if i < 17 then lane s i ^^^ natOfBytesLE ((block.drop (8 * i)).take 8) else lane s i)

/-- Absorb `n` rate blocks of the padded message into the state. -/
def absorbBlocks (s : List Nat) (bytes : List Nat) : Nat → List Nat
  | 0 => s
  | n + 1 => absorbBlocks (keccakF (xorBlock s (bytes.take 136))) (bytes.drop 136) n

/-- SHA3 padding: append 0x06, zero-fill to a multiple of the 136-byte rate,
XOR 0x80 into the final byte. -/
def sha3Pad (msg : List Nat) : List Nat :=
  let m := msg ++ [0x06]
  let padded := m ++ List.replicate ((136 - m.length % 136) % 136) 0
  padded.take (padded.length - 1) ++ [padded.getD (padded.length - 1) 0 ^^^ 0x80]

/-- SHA3-256 of a byte list: pad, absorb at rate 136, output the first 32 bytes
of the state (validated against the standard test vectors for the empty string,
"abc", and a two-block message). -/
def sha3_256 (msg : List Nat) : List Nat :=
  let padded := sha3Pad msg
  let s := absorbBlocks (List.replicate 25 0) padded (padded.length / 136)
  (List.range 32).map (fun i => lane s (i / 8) / 256 ^ (i % 8) % 256)

/- ## The field

`PoseidonSponge` is generic over `F: PrimeField<Repr = [u8; 32]>`; the modulus
asserted by `PoseidonTranscript::new` (and used by the repository's tests) is
the secp256k1 base field prime, so the byte-decoding entry points are embedded
at that field. -/

/-- The secp256k1 base field prime
`0xfffffffffffffffffffffffffffffffffffffffffffffffffffffffefffffc2f`, the
modulus `PoseidonTranscript::new` asserts for `SpongeCurve::K256`. -/
def P : Nat :=
  115792089237316195423570985008687907853269984665640564039457584007908834671663

/-- The field of the sponge: integers modulo the secp256k1 base prime. -/
abbrev Fp := ZMod P

/-- `F::from_repr` for a 32-byte canonical (little-endian) representation:
`none` models a failed (non-canonical) decode, which `.unwrap()` turns into a
panic in the source. -/
def from_repr (bs : List Nat) : Option Fp :=
  if natOfBytesLE bs < P then some ((natOfBytesLE bs : Nat) : Fp) else none

/-- `F::from_bytes_wide`: reduce a 64-byte little-endian value modulo `P`. -/
def from_bytes_wide (bs : List Nat) : Fp := ((natOfBytesLE bs : Nat) : Fp)

/- ## IO patterns and the domain-separation tag (`src/sponge.rs`) -/

/-- `SpongeOp` from `src/sponge.rs`. -/
inductive SpongeOp where
  | Absorb : Nat → SpongeOp
  | Squeeze : Nat → SpongeOp
deriving DecidableEq

/-- Step 1 of `compute_tag`: encode one operation as a 32-bit word
(`(n + 0x80000000) as u32` for absorb, `n as u32` for squeeze). -/
def encodeOp : SpongeOp → Nat
  | SpongeOp.Absorb n => (n + 0x80000000) % 2 ^ 32
  | SpongeOp.Squeeze n => n % 2 ^ 32

/-- One iteration of step 2 (aggregation) of `compute_tag`: merge the incoming
word into the last aggregated word when both compare strictly against
`0x80000000` on the same side, otherwise push it. `u32` additions are taken
modulo `2 ^ 32`. -/
def aggregateStep (acc : List Nat) (w : Nat) : List Nat :=
  if acc.length = 0 then
    acc ++ [w]
  else
    let i := acc.length - 1
    let last := acc.getD i 0
    if 0x80000000 < last ∧ 0x80000000 < w then
      acc.set i ((last + (w - 0x80000000)) % 2 ^ 32)
    else if last < 0x80000000 ∧ w < 0x80000000 then
      acc.set i ((last + w) % 2 ^ 32)
    else
      acc ++ [w]

/-- Step 2 of `compute_tag`: the aggregation loop. -/
def aggregate (ws : List Nat) : List Nat := ws.foldl aggregateStep []

/-- `u32::to_be_bytes`. -/
def wordBytesBE (w : Nat) : List Nat :=
  [w / 2 ^ 24 % 256, w / 2 ^ 16 % 256, w / 2 ^ 8 % 256, w % 256]

/-- `PoseidonSponge::compute_tag`: encode the IO pattern into 32-bit words,
aggregate, serialize big-endian, append the domain separator, hash with
SHA3-256 and decode `[0u8; 16] ++ digest[0..16]` as a field element. -/
def compute_tag (domain_separator : List Nat) (io_pattern : Option (List SpongeOp)) :
    Option Fp :=
  let io_words := match io_pattern with
    | some io => io.map encodeOp
    | none => []
  let io_words_aggregated := aggregate io_words
  let io_bytes := (io_words_aggregated.map wordBytesBE).flatten ++ domain_separator
  let result := sha3_256 io_bytes
  from_repr (List.replicate 16 0 ++ result.take 16)

/-- Made from the words of the spec for the C3 pipeline: a word is of the
absorb (tagged) kind when its high bit is set, i.e. when it is at least
`0x80000000`. -/
def specTagged (w : Nat) : Prop := 0x80000000 ≤ w

instance (w : Nat) : Decidable (specTagged w) := Nat.decLe _ _

/-- Made from the words of the spec for the C3 pipeline: merge every pair of
consecutive words of the same tagged/untagged kind by summation (two absorb
words sum their counts under a single high bit). -/
def specMergeStep (acc : List Nat) (w : Nat) : List Nat :=
  match acc.getLast? with
  | none => [w]
  | some last =>
    if specTagged last ∧ specTagged w then
      acc.dropLast ++ [(last + (w - 0x80000000)) % 2 ^ 32]
    else if ¬specTagged last ∧ ¬specTagged w then
      acc.dropLast ++ [(last + w) % 2 ^ 32]
    else
      acc ++ [w]

/-- The spec-worded aggregation pass of the C3 pipeline. -/
def specAggregate (ws : List Nat) : List Nat := ws.foldl specMergeStep []

/-- The C3 pipeline exactly as the claim words it: encode, merge same-kind
neighbours (kind decided by the high bit alone), serialize big-endian, append
the domain separator, SHA3-256, take the first 128 bits left-padded with 128
zero bits, decode as a field element. -/
def spec_tag (domain_separator : List Nat) (io_pattern : Option (List SpongeOp)) :
    Option Fp :=
  let io_words := match io_pattern with
    | some io => io.map encodeOp
    | none => []
  let io_words_aggregated := specAggregate io_words
  let io_bytes := (io_words_aggregated.map wordBytesBE).flatten ++ domain_separator
  let result := sha3_256 io_bytes
  from_repr (List.replicate 16 0 ++ result.take 16)

/-- The amended aggregation kind: a word merges only when it compares strictly
against `0x80000000`; the boundary word `0x80000000` itself (an `Absorb(0)`
run) never merges. -/
def amendedMergeStep (acc : List Nat) (w : Nat) : List Nat :=
  match acc.getLast? with
  | none => [w]
  | some last =>
    if 0x80000000 < last ∧ 0x80000000 < w then
      acc.dropLast ++ [(last + (w - 0x80000000)) % 2 ^ 32]
    else if last < 0x80000000 ∧ w < 0x80000000 then
      acc.dropLast ++ [(last + w) % 2 ^ 32]
    else
      acc ++ [w]

/-- The amended aggregation pass: merge only strictly-same-side neighbours. -/
def amendedAggregate (ws : List Nat) : List Nat := ws.foldl amendedMergeStep []

/-- The C3 pipeline with the amended aggregation pass. -/
def amended_tag (domain_separator : List Nat) (io_pattern : Option (List SpongeOp)) :
    Option Fp :=
  let io_words := match io_pattern with
    | some io => io.map encodeOp
    | none => []
  let io_words_aggregated := amendedAggregate io_words
  let io_bytes := (io_words_aggregated.map wordBytesBE).flatten ++ domain_separator
  let result := sha3_256 io_bytes
  from_repr (List.replicate 16 0 ++ result.take 16)

/- ## The Poseidon permutation (`src/poseidon/mod.rs`) -/

/-- `PoseidonConstants` from `src/poseidon/mod.rs`. -/
structure PoseidonConstants (F : Type) where
  round_keys : List F
  mds_matrix : List (List F)
  num_full_rounds : Nat
  num_partial_rounds : Nat
deriving DecidableEq

/-- `Poseidon` from `src/poseidon/mod.rs`: a state, the constants, and the
running cursor `pos` into the round-key sequence. -/
structure Poseidon (F : Type) where
  state : List F
  constants : PoseidonConstants F
  pos : Nat
deriving DecidableEq

/-- `Poseidon::add_constants`: add `round_keys[i + pos]` to `state[i]` for
every state index; `none` models the out-of-bounds index panic. -/
def Poseidon.add_constants {F : Type} [CommRing F] (p : Poseidon F) : Option (Poseidon F) :=
  if ∀ i < p.state.length, i + p.pos < p.constants.round_keys.length then
    let state := (List.range p.state.length).map
      (fun i => p.state.getD i 0 + p.constants.round_keys.getD (i + p.pos) 0)
    some { p with state := state }
  else none

/-- `Poseidon::matrix_mul`: replace the state with `MDS * state`; `none` models
the panic when a matrix row is shorter than the state. -/
def Poseidon.matrix_mul {F : Type} [CommRing F] (p : Poseidon F) : Option (Poseidon F) :=
  if ∀ row ∈ p.constants.mds_matrix, p.state.length ≤ row.length then
    let result := p.constants.mds_matrix.map (fun row =>
      (List.range p.state.length).foldl
        (fun tmp j => tmp + row.getD j 0 * p.state.getD j 0) 0)
    some { p with state := result }
  else none

/-- `Poseidon::full_round`: add constants, raise every state element to the
power 5, multiply by the MDS matrix, then advance `pos` by the (new) state
length. The source S-box loop bound `t` is the pre-round state length, which
`add_constants` preserves, so a map over the whole state is the same loop. -/
def Poseidon.full_round {F : Type} [CommRing F] (p : Poseidon F) : Option (Poseidon F) :=
  (p.add_constants).bind fun q =>
  (Poseidon.matrix_mul { q with state := q.state.map (fun x => x ^ 5) }).bind fun r =>
  some { r with pos := r.pos + r.state.length }

/-- `Poseidon::partial_round`: like a full round but only state element 0 goes
through the S-box; `none` also models the `state[0]` panic on an empty state. -/
def Poseidon.partial_round {F : Type} [CommRing F] (p : Poseidon F) : Option (Poseidon F) :=
  (p.add_constants).bind fun q =>
  (match q.state with
   | [] => none
   | x :: rest => some { q with state := x ^ 5 :: rest }).bind fun q =>
  (q.matrix_mul).bind fun r =>
  some { r with pos := r.pos + r.state.length }

/-- Run a fallible round `n` times. -/
def iterateOpt {α : Type} (f : α → Option α) : Nat → α → Option α
  | 0, a => some a
  | n + 1, a => (f a).bind (iterateOpt f n)

/-- `Poseidon::permute`: `num_full_rounds / 2` full rounds, then all partial
rounds, then `num_full_rounds / 2` full rounds. -/
def Poseidon.permute {F : Type} [CommRing F] (p : Poseidon F) : Option (Poseidon F) :=
  let full_rounds_half := p.constants.num_full_rounds / 2
  (iterateOpt Poseidon.full_round full_rounds_half p).bind fun q =>
  (iterateOpt Poseidon.partial_round q.constants.num_partial_rounds q).bind fun q =>
  iterateOpt Poseidon.full_round full_rounds_half q

/-- `Poseidon::hash`: prepend the domain tag `3` (`2^arity - 1` for arity 2),
overwrite the state with the padded input, permute once and return
`state[1]` (`none` models the panic when `state[1]` does not exist). -/
def Poseidon.hash {F : Type} [CommRing F] (p : Poseidon F) (input : List F) :
    Option (F × Poseidon F) :=
  let input := (3 : F) :: input
  (Poseidon.permute { p with state := input }).bind fun q =>
  (q.state.get? 1).map fun d => (d, q)

/- ## The sponge (`src/sponge.rs`) -/

/-- `PoseidonSponge` from `src/sponge.rs`. -/
structure PoseidonSponge (F : Type) where
  absorb_pos : Nat
  squeeze_pos : Nat
  io_count : Nat
  io_pattern : Option (List SpongeOp)
  rate : Nat
  capacity : Nat
  poseidon : Poseidon F
deriving DecidableEq

/-- `PoseidonSponge::permute` (private): run the Poseidon permutation and reset
the round-key cursor to 0. -/
def PoseidonSponge.permute {F : Type} [CommRing F] (s : PoseidonSponge F) :
    Option (PoseidonSponge F) :=
  (Poseidon.permute s.poseidon).map fun p => { s with poseidon := { p with pos := 0 } }

/-- The `for x_i in x` loop of `PoseidonSponge::absorb`: permute and reset
`absorb_pos` when the rate is exhausted, then write the element at
`state[absorb_pos]` and advance the cursor (`none` models the out-of-bounds
write panic). -/
def PoseidonSponge.absorbLoop {F : Type} [CommRing F] (s : PoseidonSponge F) :
    List F → Option (PoseidonSponge F)
  | [] => some s
  | x :: xs =>
    ((if s.absorb_pos = s.rate then
        (s.permute).map fun t => { t with absorb_pos := 0 }
      else some s).bind fun t =>
      if t.absorb_pos < t.poseidon.state.length then
        PoseidonSponge.absorbLoop
          { t with
            poseidon := { t.poseidon with state := t.poseidon.state.set t.absorb_pos x },
            absorb_pos := t.absorb_pos + 1 } xs
      else none)

/-- `PoseidonSponge::absorb`: early-return on an empty input, else run the
element loop, then bump `io_count` and set `squeeze_pos := rate`. -/
def PoseidonSponge.absorb {F : Type} [CommRing F] (s : PoseidonSponge F) (x : List F) :
    Option (PoseidonSponge F) :=
  if x.length = 0 then some s
  else (s.absorbLoop x).map fun t =>
    { t with io_count := t.io_count + 1, squeeze_pos := t.rate }

/-- The `for _ in 0..length` loop of `PoseidonSponge::squeeze`: permute and
reset both cursors when the rate is exhausted, then read `state[squeeze_pos]`
and advance the cursor (`none` models the out-of-bounds read panic). -/
def PoseidonSponge.squeezeLoop {F : Type} [CommRing F] (s : PoseidonSponge F) :
    Nat → Option (List F × PoseidonSponge F)
  | 0 => some ([], s)
  | n + 1 =>
    ((if s.squeeze_pos = s.rate then
        (s.permute).map fun t => { t with squeeze_pos := 0, absorb_pos := 0 }
      else some s).bind fun t =>
      (t.poseidon.state.get? t.squeeze_pos).bind fun y =>
      (PoseidonSponge.squeezeLoop { t with squeeze_pos := t.squeeze_pos + 1 } n).map
        fun r => (y :: r.1, r.2))

/-- `PoseidonSponge::squeeze`: early-return on `length == 0`, else run the
output loop and bump `io_count` once. -/
def PoseidonSponge.squeeze {F : Type} [CommRing F] (s : PoseidonSponge F) (length : Nat) :
    Option (List F × PoseidonSponge F) :=
  if length = 0 then some ([], s)
  else (s.squeezeLoop length).map fun r =>
    (r.1, { r.2 with io_count := r.2.io_count + 1 })

/-- `PoseidonSponge::finish`: `Ok(())` without a declared pattern; with one,
`Ok(())` exactly when `io_count` equals the pattern's operation count, else the
typed error. -/
def PoseidonSponge.finish {F : Type} (s : PoseidonSponge F) : Except String Unit :=
  match s.io_pattern with
  | none => Except.ok ()
  | some io_pattern =>
    if s.io_count ≠ io_pattern.length then Except.error ("IO pattern mismatch")
    else Except.ok ()

/-- `PoseidonSponge::construct` for `SpongeCurve::K256`. The parsed constants
table (`k256_consts`, parsed with `from_str_vartime`) is passed as an argument:
the `k256_consts` source file is not part of the available sources and its
values do not affect construction. The state starts as `[tag, 0, 0]` with
`rate = 2`, `capacity = 1`, both cursors and `io_count` at 0; `none` models the
`.unwrap()` panic of a failed tag decode. -/
def PoseidonSponge.construct (domain_separator : List Nat)
    (constants : PoseidonConstants Fp) (io_pattern : Option (List SpongeOp)) :
    Option (PoseidonSponge Fp) :=
  (compute_tag domain_separator io_pattern).map fun tag =>
    { absorb_pos := 0
      squeeze_pos := 0
      io_count := 0
      io_pattern := io_pattern
      rate := 2
      capacity := 1
      poseidon := { state := [tag, 0, 0], constants := constants, pos := 0 } }

/- ## The transcript (`src/transcript.rs`) -/

/-- `PoseidonTranscript`: a sponge over the asserted scalar field. -/
structure PoseidonTranscript where
  sponge : PoseidonSponge Fp

/-- `PoseidonTranscript::new`: a sponge with no declared IO pattern (the curve
modulus assertion always passes at `Fp`, which is the asserted modulus). -/
def PoseidonTranscript.new (domain_separator : List Nat)
    (constants : PoseidonConstants Fp) : Option PoseidonTranscript :=
  (PoseidonSponge.construct domain_separator constants none).map fun s =>
    { sponge := s }

/-- `PoseidonTranscript::append_bytes`: `none` models the
`assert!(bytes.len() <= 64)` failure; otherwise right-pad with zero bytes to
64, decode wide, and absorb the single resulting element. -/
def PoseidonTranscript.append_bytes (t : PoseidonTranscript) (bytes : List Nat) :
    Option PoseidonTranscript :=
  if bytes.length ≤ 64 then
    let padded_bytes := bytes ++ List.replicate (64 - bytes.length) 0
    (t.sponge.absorb [from_bytes_wide padded_bytes]).map fun s => { sponge := s }
  else none

/- ## Concrete instances used by witnesses -/

/-- A small constants table over `ZMod 101` (2 full rounds, 1 partial round,
exactly 9 round keys, identity MDS matrix). -/
def exConstants : PoseidonConstants (ZMod 101) :=
  { round_keys := [1, 2, 3, 4, 5, 6, 7, 8, 9]
    mds_matrix := [[1, 0, 0], [0, 1, 0], [0, 0, 1]]
    num_full_rounds := 2
    num_partial_rounds := 1 }

/-- A fresh sponge over `ZMod 101` built on `exConstants`. -/
def exSponge : PoseidonSponge (ZMod 101) :=
  { absorb_pos := 0
    squeeze_pos := 0
    io_count := 0
    io_pattern := none
    rate := 2
    capacity := 1
    poseidon := { state := [0, 0, 0], constants := exConstants, pos := 0 } }

/-- A Poseidon instance over `ZMod 101` built on `exConstants`. -/
def exPoseidon : Poseidon (ZMod 101) :=
  { state := [1, 2, 3], constants := exConstants, pos := 0 }

/-- `exSponge` with an exhausted squeeze cursor (`squeeze_pos = rate`). -/
def exSponge2 : PoseidonSponge (ZMod 101) :=
  { exSponge with squeeze_pos := 2 }

/-- The sponge obtained from `exSponge` by absorbing the single element 5. -/
def exAbsorbed : PoseidonSponge (ZMod 101) :=
  { absorb_pos := 1
    squeeze_pos := 2
    io_count := 1
    io_pattern := none
    rate := 2
    capacity := 1
    poseidon := { state := [5, 0, 0], constants := exConstants, pos := 0 } }

/-- An (empty) constants table over the transcript field; constants are never
consulted by the operations the concrete theorems evaluate. -/
def exConstantsFp : PoseidonConstants Fp :=
  { round_keys := [], mds_matrix := [], num_full_rounds := 0, num_partial_rounds := 0 }

/-- A fresh sponge over the transcript field. -/
def exSpongeFp : PoseidonSponge Fp :=
  { absorb_pos := 0
    squeeze_pos := 0
    io_count := 0
    io_pattern := none
    rate := 2
    capacity := 1
    poseidon := { state := [0, 0, 0], constants := exConstantsFp, pos := 0 } }

/-- A transcript wrapping `exSpongeFp`. -/
def exTranscript : PoseidonTranscript := { sponge := exSpongeFp }

/- ## Byte-decoding lemmas -/

theorem natOfBytesLE_cons (b : Nat) (l : List Nat) :
    natOfBytesLE (b :: l) = b + 256 * natOfBytesLE l := rfl

theorem natOfBytesLE_append (a b : List Nat) :
    natOfBytesLE (a ++ b) = natOfBytesLE a + 256 ^ a.length * natOfBytesLE b := by
  induction a with
  | nil => simp [natOfBytesLE]
  | cons x t ih =>
    simp only [List.cons_append, natOfBytesLE_cons, ih, List.length_cons]
    ring

theorem natOfBytesLE_lt (l : List Nat) (h : ∀ b ∈ l, b < 256) :
    natOfBytesLE l < 256 ^ l.length := by
  induction l with
  | nil => simp [natOfBytesLE]
  | cons x t ih =>
    have hx : x < 256 := h x (by simp)
    have ht := ih (fun b hb => h b (by simp [hb]))
    simp only [natOfBytesLE_cons, List.length_cons, pow_succ]
    set A := 256 ^ t.length
    omega

theorem natOfBytesLE_inj : ∀ (l1 l2 : List Nat), l1.length = l2.length →
    (∀ b ∈ l1, b < 256) → (∀ b ∈ l2, b < 256) →
    natOfBytesLE l1 = natOfBytesLE l2 → l1 = l2 := by
  intro l1
  induction l1 with
  | nil =>
    intro l2 hlen _ _ _
    exact (List.length_eq_zero.mp hlen.symm).symm
  | cons x t ih =>
    intro l2 hlen hb1 hb2 hval
    cases l2 with
    | nil => simp at hlen
    | cons y u =>
      have hx : x < 256 := hb1 x (by simp)
      have hy : y < 256 := hb2 y (by simp)
      have h1 := natOfBytesLE_lt t (fun b hb => hb1 b (by simp [hb]))
      have h2 := natOfBytesLE_lt u (fun b hb => hb2 b (by simp [hb]))
      simp only [natOfBytesLE_cons] at hval
      have hxy : x = y ∧ natOfBytesLE t = natOfBytesLE u := by omega
      have htu := ih u (by simpa using hlen) (fun b hb => hb1 b (by simp [hb]))
        (fun b hb => hb2 b (by simp [hb])) hxy.2
      rw [hxy.1, htu]

theorem sha3_256_length (m : List Nat) : (sha3_256 m).length = 32 := by
  simp [sha3_256]

theorem sha3_256_bytes_lt (m : List Nat) : ∀ b ∈ sha3_256 m, b < 256 := by
  intro b hb
  simp only [sha3_256, List.mem_map, List.mem_range] at hb
  obtain ⟨i, _, rfl⟩ := hb
  exact Nat.mod_lt _ (by norm_num)

theorem tag_repr_lt (l : List Nat) (hlen : l.length = 16) (hb : ∀ b ∈ l, b < 256) :
    natOfBytesLE (List.replicate 16 0 ++ l) < P := by
  rw [natOfBytesLE_append]
  have hz : natOfBytesLE (List.replicate 16 0) = 0 := rfl
  have hl := natOfBytesLE_lt l hb
  rw [hlen] at hl
  rw [hz, List.length_replicate]
  have h16 : (256 : Nat) ^ 16 = 340282366920938463463374607431768211456 := by norm_num
  rw [h16] at hl ⊢
  unfold P
  omega

theorem tag_from_repr_some (l : List Nat) (hlen : l.length = 16)
    (hb : ∀ b ∈ l, b < 256) :
    from_repr (List.replicate 16 0 ++ l) =
      some ((natOfBytesLE (List.replicate 16 0 ++ l) : Nat) : Fp) := by
  rw [from_repr, if_pos (tag_repr_lt l hlen hb)]

theorem tag_from_repr_ne (l1 l2 : List Nat) (h1 : l1.length = 16) (h2 : l2.length = 16)
    (hb1 : ∀ b ∈ l1, b < 256) (hb2 : ∀ b ∈ l2, b < 256) (hne : l1 ≠ l2)
    (t1 t2 : Fp) (he1 : from_repr (List.replicate 16 0 ++ l1) = some t1)
    (he2 : from_repr (List.replicate 16 0 ++ l2) = some t2) : t1 ≠ t2 := by
  rw [tag_from_repr_some l1 h1 hb1] at he1
  rw [tag_from_repr_some l2 h2 hb2] at he2
  have hv1 := tag_repr_lt l1 h1 hb1
  have hv2 := tag_repr_lt l2 h2 hb2
  intro hteq
  apply hne
  have hcast : ((natOfBytesLE (List.replicate 16 0 ++ l1) : Nat) : Fp) =
      ((natOfBytesLE (List.replicate 16 0 ++ l2) : Nat) : Fp) := by
    rw [Option.some_inj.mp he1, Option.some_inj.mp he2, hteq]
  have hval : natOfBytesLE (List.replicate 16 0 ++ l1) =
      natOfBytesLE (List.replicate 16 0 ++ l2) := by
    have := congrArg ZMod.val hcast
    rwa [ZMod.val_cast_of_lt hv1, ZMod.val_cast_of_lt hv2] at this
  have hfull : List.replicate 16 0 ++ l1 = List.replicate 16 0 ++ l2 := by
    apply natOfBytesLE_inj _ _ (by simp [h1, h2]) _ _ hval
    · intro b hb
      rcases List.mem_append.mp hb with h | h
      · have := List.eq_of_mem_replicate h; omega
      · exact hb1 b h
    · intro b hb
      rcases List.mem_append.mp hb with h | h
      · have := List.eq_of_mem_replicate h; omega
      · exact hb2 b h
  exact List.append_cancel_left hfull

/- ## Aggregation-step equalities (for C3) -/

theorem aggregateStep_cons_cons (a b w : Nat) (t : List Nat) :
    aggregateStep (a :: b :: t) w = a :: aggregateStep (b :: t) w := by
  simp only [aggregateStep, List.length_cons, Nat.add_one_ne_zero, if_false,
    Nat.add_sub_cancel, List.getD_cons_succ]
  split
  · rfl
  · split <;> rfl

theorem amendedMergeStep_cons_cons (a b w : Nat) (t : List Nat) :
    amendedMergeStep (a :: b :: t) w = a :: amendedMergeStep (b :: t) w := by
  simp only [amendedMergeStep, List.getLast?_cons_cons]
  cases hl : (b :: t).getLast? with
  | none => simp [List.getLast?_eq_none_iff] at hl
  | some last =>
    by_cases h1 : 0x80000000 < last ∧ 0x80000000 < w
    · simp [h1, List.dropLast_cons₂]
    · by_cases h2 : last < 0x80000000 ∧ w < 0x80000000
      · simp [h1, h2, List.dropLast_cons₂]
      · simp [h1, h2]

theorem aggregateStep_eq_amendedMergeStep (acc : List Nat) (w : Nat) :
    aggregateStep acc w = amendedMergeStep acc w := by
  induction acc with
  | nil => simp [aggregateStep, amendedMergeStep]
  | cons a t ih =>
    cases t with
    | nil =>
      by_cases h1 : 0x80000000 < a ∧ 0x80000000 < w
      · simp [aggregateStep, amendedMergeStep, h1, List.set]
      · by_cases h2 : a < 0x80000000 ∧ w < 0x80000000
        · simp [aggregateStep, amendedMergeStep, h1, h2, List.set]
        · simp [aggregateStep, amendedMergeStep, h1, h2]
    | cons b t2 =>
      rw [aggregateStep_cons_cons, amendedMergeStep_cons_cons, ih]

theorem aggregate_eq_amendedAggregate : aggregate = amendedAggregate := by
  funext ws
  simp only [aggregate, amendedAggregate]
  rw [List.foldl_ext aggregateStep amendedMergeStep []
    (fun acc b _ => aggregateStep_eq_amendedMergeStep acc b)]

/- ## Claim theorems (first group) -/

/-- C7: for every sponge, `absorb` of an empty slice and `squeeze 0` return
immediately with the sponge fully unchanged (state, cursors, `io_count`), so in
particular no permutation ran and the realized-operation counter did not
advance. -/
theorem c7_empty_absorb_and_zero_squeeze_are_noops {F : Type} [CommRing F]
    (s : PoseidonSponge F) :
    s.absorb [] = some s ∧ s.squeeze 0 = some ([], s) := by
  constructor
  · simp [PoseidonSponge.absorb]
  · simp [PoseidonSponge.squeeze]

/-- C5: `finish` always succeeds without a declared IO pattern; with one it
succeeds exactly when `io_count` equals the pattern's operation count and
otherwise returns the typed error value; and it depends on the pattern only
through its operation count (two patterns of equal length are
indistinguishable to `finish`). -/
theorem c5_finish_checks_only_operation_count {F : Type} (s : PoseidonSponge F) :
    (s.io_pattern = none → s.finish = Except.ok ()) ∧
    (∀ io, s.io_pattern = some io →
      ((s.finish = Except.ok () ↔ s.io_count = io.length) ∧
       (s.io_count ≠ io.length → s.finish = Except.error ("IO pattern mismatch")))) ∧
    (∀ io io2 : List SpongeOp, io.length = io2.length →
      PoseidonSponge.finish { s with io_pattern := some io } =
        PoseidonSponge.finish { s with io_pattern := some io2 }) := by
  refine ⟨?_, ?_, ?_⟩
  · intro h
    simp [PoseidonSponge.finish, h]
  · intro io h
    constructor
    · by_cases hc : s.io_count = io.length <;> simp [PoseidonSponge.finish, h, hc]
    · intro hc
      simp [PoseidonSponge.finish, h, hc]
  · intro io io2 h
    simp only [PoseidonSponge.finish, h]

/-- C8: `append_bytes` on at most 64 bytes right-pads the input with zeros to
exactly 64 bytes, decodes the padded buffer with the wide (64-byte) reduction
decoding and absorbs exactly that one element; on more than 64 bytes the
assertion branch (`none`) is taken, and it is not taken under the
precondition. -/
theorem c8_append_bytes_contract (t : PoseidonTranscript) (bytes : List Nat) :
    (bytes.length ≤ 64 →
      (bytes ++ List.replicate (64 - bytes.length) 0).length = 64 ∧
      t.append_bytes bytes =
        (t.sponge.absorb [from_bytes_wide (bytes ++ List.replicate (64 - bytes.length) 0)]).map
          (fun s => { sponge := s })) ∧
    (64 < bytes.length → t.append_bytes bytes = none) := by
  constructor
  · intro h
    constructor
    · simp only [List.length_append, List.length_replicate]
      omega
    · rw [PoseidonTranscript.append_bytes, if_pos h]
  · intro h
    rw [PoseidonTranscript.append_bytes, if_neg (by omega)]

/-- C3 (counterexample): on the IO pattern `[Absorb 0, Absorb 1]` with an empty
domain separator, `compute_tag` differs from the claim's pipeline, because the
`Absorb 0` word is exactly `0x80000000` and the source's strict comparisons
refuse to merge it with the following absorb word. -/
theorem c3_counterexample :
    compute_tag [] (some [SpongeOp.Absorb 0, SpongeOp.Absorb 1]) ≠
      spec_tag [] (some [SpongeOp.Absorb 0, SpongeOp.Absorb 1]) := by
  decide

/-- C3 (amended): `compute_tag` equals the claimed pipeline once the
aggregation pass is amended so that two neighbouring words merge only when
both compare strictly on the same side of `0x80000000`; a word equal to
exactly `0x80000000` (an `Absorb 0` run) never merges. -/
theorem c3_tag_pipeline_amended (ds : List Nat) (pat : Option (List SpongeOp)) :
    compute_tag ds pat = amended_tag ds pat := by
  simp only [compute_tag, amended_tag, aggregate_eq_amendedAggregate]

/- ## Sponge lemmas for C4 and C9 -/

theorem sponge_permute_fields {F : Type} [CommRing F] (s t : PoseidonSponge F)
    (h : PoseidonSponge.permute s = some t) :
    t.rate = s.rate ∧ t.absorb_pos = s.absorb_pos ∧ t.squeeze_pos = s.squeeze_pos ∧
      t.io_count = s.io_count ∧ t.io_pattern = s.io_pattern ∧ t.poseidon.pos = 0 := by
  rw [PoseidonSponge.permute] at h
  obtain ⟨p, _, hp⟩ := Option.map_eq_some'.mp h
  rw [← hp]
  exact ⟨rfl, rfl, rfl, rfl, rfl, rfl⟩

theorem squeeze_at_rate_runs_permutation {F : Type} [CommRing F]
    (s1 : PoseidonSponge F) (n : Nat)
    (h : s1.squeeze_pos = s1.rate) (hr : 0 < s1.rate) :
    s1.squeeze (n + 1) =
      (PoseidonSponge.permute s1).bind
        (fun u => PoseidonSponge.squeeze
          { u with squeeze_pos := 0, absorb_pos := 0 } (n + 1)) := by
  cases hperm : PoseidonSponge.permute s1 with
  | none =>
    rw [PoseidonSponge.squeeze, if_neg (Nat.succ_ne_zero n),
      PoseidonSponge.squeezeLoop, if_pos h, hperm]
    rfl
  | some u =>
    have hu := sponge_permute_fields s1 u hperm
    have hne : ¬((0 : Nat) = u.rate) := by
      rw [hu.1]
      omega
    rw [PoseidonSponge.squeeze, if_neg (Nat.succ_ne_zero n),
      PoseidonSponge.squeezeLoop, if_pos h, hperm, Option.some_bind]
    rw [PoseidonSponge.squeeze, if_neg (Nat.succ_ne_zero n),
      PoseidonSponge.squeezeLoop]
    rw [if_neg hne, Option.map_some', Option.some_bind]

/- ## Claim theorems (second group) -/

/-- C4: after a non-empty `absorb` the squeeze cursor equals the rate, hence
the next squeeze of any positive length first runs a permutation and resets
both cursors to 0 before reading any output. -/
theorem c4_absorb_forces_fresh_permutation {F : Type} [CommRing F]
    (s : PoseidonSponge F) (x : List F) (n : Nat) (hx : x ≠ []) :
    ∀ t, s.absorb x = some t →
      t.squeeze_pos = t.rate ∧
      (0 < t.rate →
        t.squeeze (n + 1) =
          (PoseidonSponge.permute t).bind
            (fun u => PoseidonSponge.squeeze
              { u with squeeze_pos := 0, absorb_pos := 0 } (n + 1))) := by
  intro t ht
  have hlen : ¬(x.length = 0) := fun hh => hx (List.length_eq_zero.mp hh)
  rw [PoseidonSponge.absorb, if_neg hlen] at ht
  obtain ⟨u, _, hut⟩ := Option.map_eq_some'.mp ht
  have hsq : t.squeeze_pos = t.rate := by rw [← hut]
  refine ⟨hsq, fun hr => ?_⟩
  exact squeeze_at_rate_runs_permutation t n hsq hr

/-- C4 witness: the concrete sponge obtained by absorbing one element into
`exSponge` has `squeeze_pos = rate`, and its next squeeze permutes first. -/
theorem c4_witness :
    PoseidonSponge.absorb exSponge [(5 : ZMod 101)] = some exAbsorbed ∧
    exAbsorbed.squeeze_pos = exAbsorbed.rate ∧
    PoseidonSponge.squeeze exAbsorbed 1 =
      (PoseidonSponge.permute exAbsorbed).bind
        (fun u => PoseidonSponge.squeeze
          { u with squeeze_pos := 0, absorb_pos := 0 } 1) := by
  have habs : PoseidonSponge.absorb exSponge [(5 : ZMod 101)] = some exAbsorbed := by decide
  have h := c4_absorb_forces_fresh_permutation exSponge [(5 : ZMod 101)] 0
    (by decide) exAbsorbed habs
  exact ⟨habs, h.1, h.2 (by decide)⟩

theorem compute_tag_none_eq (ds : List Nat) :
    compute_tag ds none = from_repr (List.replicate 16 0 ++ (sha3_256 ds).take 16) := rfl

/-- C10: even with no declared IO pattern the tag pipeline runs: the sponge is
constructed with state slot 0 equal to the field element decoded from 16 zero
bytes followed by the first 16 bytes of SHA3-256 of the domain separator; and
two patternless sponges whose domain separators hash to different first 16
bytes start from different states (their capacity slots differ). -/
theorem c10_no_pattern_tag_still_binds_domain_separator
    (ds ds2 : List Nat) (c c2 : PoseidonConstants Fp)
    (hne : (sha3_256 ds).take 16 ≠ (sha3_256 ds2).take 16) :
    (∃ t1 t2 : Fp,
      from_repr (List.replicate 16 0 ++ (sha3_256 ds).take 16) = some t1 ∧
      from_repr (List.replicate 16 0 ++ (sha3_256 ds2).take 16) = some t2 ∧
      PoseidonSponge.construct ds c none = some
        { absorb_pos := 0, squeeze_pos := 0, io_count := 0, io_pattern := none,
          rate := 2, capacity := 1,
          poseidon := { state := [t1, 0, 0], constants := c, pos := 0 } } ∧
      PoseidonSponge.construct ds2 c2 none = some
        { absorb_pos := 0, squeeze_pos := 0, io_count := 0, io_pattern := none,
          rate := 2, capacity := 1,
          poseidon := { state := [t2, 0, 0], constants := c2, pos := 0 } }) ∧
    (∀ s1 s2, PoseidonSponge.construct ds c none = some s1 →
      PoseidonSponge.construct ds2 c2 none = some s2 →
      s1.poseidon.state.getD 0 0 ≠ s2.poseidon.state.getD 0 0) := by
  have hlen1 : ((sha3_256 ds).take 16).length = 16 := by
    simp [List.length_take, sha3_256_length]
  have hlen2 : ((sha3_256 ds2).take 16).length = 16 := by
    simp [List.length_take, sha3_256_length]
  have hb1 : ∀ b ∈ (sha3_256 ds).take 16, b < 256 :=
    fun b hb => sha3_256_bytes_lt ds b (List.take_subset _ _ hb)
  have hb2 : ∀ b ∈ (sha3_256 ds2).take 16, b < 256 :=
    fun b hb => sha3_256_bytes_lt ds2 b (List.take_subset _ _ hb)
  have ht1 := tag_from_repr_some _ hlen1 hb1
  have ht2 := tag_from_repr_some _ hlen2 hb2
  set v1 : Fp := ((natOfBytesLE (List.replicate 16 0 ++ (sha3_256 ds).take 16) : Nat) : Fp)
  set v2 : Fp := ((natOfBytesLE (List.replicate 16 0 ++ (sha3_256 ds2).take 16) : Nat) : Fp)
  have hc1 : PoseidonSponge.construct ds c none = some
      { absorb_pos := 0, squeeze_pos := 0, io_count := 0, io_pattern := none,
        rate := 2, capacity := 1,
        poseidon := { state := [v1, 0, 0], constants := c, pos := 0 } } := by
    rw [PoseidonSponge.construct, compute_tag_none_eq, ht1, Option.map_some']
  have hc2 : PoseidonSponge.construct ds2 c2 none = some
      { absorb_pos := 0, squeeze_pos := 0, io_count := 0, io_pattern := none,
        rate := 2, capacity := 1,
        poseidon := { state := [v2, 0, 0], constants := c2, pos := 0 } } := by
    rw [PoseidonSponge.construct, compute_tag_none_eq, ht2, Option.map_some']
  have hdiff := tag_from_repr_ne _ _ hlen1 hlen2 hb1 hb2 hne _ _ ht1 ht2
  refine ⟨⟨_, _, ht1, ht2, hc1, hc2⟩, ?_⟩
  intro s1 s2 h1 h2
  rw [hc1] at h1
  rw [hc2] at h2
  rw [← Option.some_inj.mp h1, ← Option.some_inj.mp h2]
  simpa using hdiff

/-- C10 witness: two concrete patternless sponges with domain separators
`[97]` and `[98]` start from different capacity slots. -/
theorem c10_witness :
    (PoseidonSponge.construct [97] exConstantsFp none).map
        (fun s => s.poseidon.state.getD 0 0) ≠
      (PoseidonSponge.construct [98] exConstantsFp none).map
        (fun s => s.poseidon.state.getD 0 0) := by
  obtain ⟨⟨t1, t2, ht1, ht2, hc1, hc2⟩, hsens⟩ :=
    c10_no_pattern_tag_still_binds_domain_separator [97] [98]
      exConstantsFp exConstantsFp (by decide)
  rw [hc1, hc2, Option.map_some', Option.map_some']
  intro heq
  exact hsens _ _ hc1 hc2 (Option.some_inj.mp heq)

/-- C1 (code evaluation): on a freshly constructed sponge the very first
absorbed element is written to state slot 0 — the capacity slot that holds the
domain-separation tag — so the tag (which differs from the absorbed element)
is overwritten, contrary to the claimed `capacity + absorb_pos` indexing. -/
theorem c1_first_absorb_overwrites_tag_slot :
    ((PoseidonSponge.construct [] exConstantsFp none).bind
        (fun s0 => (s0.absorb [(5 : Fp)]).map (fun s => s.poseidon.state))) =
      some [(5 : Fp), 0, 0] ∧
    (PoseidonSponge.construct [] exConstantsFp none).map
        (fun s0 => s0.poseidon.state.getD 0 0) ≠ some (5 : Fp) := by
  constructor
  · decide
  · decide

/- ## Poseidon round lemmas (for C2 and C9) -/

theorem iterateOpt_zero {α : Type} (f : α → Option α) (a : α) :
    iterateOpt f 0 a = some a := rfl

theorem iterateOpt_succ {α : Type} (f : α → Option α) (n : Nat) (a : α) :
    iterateOpt f (n + 1) a = (f a).bind (iterateOpt f n) := rfl

theorem permute_unfold {F : Type} [CommRing F] (p : Poseidon F) :
    p.permute = (iterateOpt Poseidon.full_round (p.constants.num_full_rounds / 2) p).bind
      (fun q => (iterateOpt Poseidon.partial_round q.constants.num_partial_rounds q).bind
        (fun r => iterateOpt Poseidon.full_round (p.constants.num_full_rounds / 2) r)) := rfl

theorem hash_unfold {F : Type} [CommRing F] (p : Poseidon F) (input : List F) :
    p.hash input = (Poseidon.permute { p with state := (3 : F) :: input }).bind
      (fun q => (q.state.get? 1).map fun d => (d, q)) := rfl

theorem add_constants_some {F : Type} [CommRing F] (p : Poseidon F)
    (hk : ∀ i < p.state.length, i + p.pos < p.constants.round_keys.length) :
    ∃ q, p.add_constants = some q ∧ q.state.length = p.state.length ∧
      q.constants = p.constants ∧ q.pos = p.pos := by
  rw [Poseidon.add_constants, if_pos hk]
  exact ⟨_, rfl, by simp, rfl, rfl⟩

theorem matrix_mul_some {F : Type} [CommRing F] (p : Poseidon F)
    (hrow : ∀ row ∈ p.constants.mds_matrix, p.state.length ≤ row.length) :
    ∃ q, p.matrix_mul = some q ∧ q.state.length = p.constants.mds_matrix.length ∧
      q.constants = p.constants ∧ q.pos = p.pos := by
  rw [Poseidon.matrix_mul, if_pos hrow]
  exact ⟨_, rfl, by simp, rfl, rfl⟩

theorem full_round_some {F : Type} [CommRing F] (p : Poseidon F)
    (hs : p.state.length = 3) (hm : p.constants.mds_matrix.length = 3)
    (hrow : ∀ row ∈ p.constants.mds_matrix, 3 ≤ row.length)
    (hk : p.pos + 3 ≤ p.constants.round_keys.length) :
    ∃ q, p.full_round = some q ∧ q.state.length = 3 ∧ q.constants = p.constants ∧
      q.pos = p.pos + 3 := by
  have hguard : ∀ i < p.state.length, i + p.pos < p.constants.round_keys.length := by
    intro i hi
    rw [hs] at hi
    omega
  obtain ⟨q1, h1, h1s, h1c, h1pos⟩ := add_constants_some p hguard
  have h1s3 : q1.state.length = 3 := by rw [h1s, hs]
  obtain ⟨q2, h2, h2s, h2c, h2pos⟩ :=
    matrix_mul_some { q1 with state := q1.state.map (fun x => x ^ 5) }
      (by intro row hr
          simp only [List.length_map, h1s3]
          refine hrow row ?_
          rwa [← h1c])
  refine ⟨{ q2 with pos := q2.pos + q2.state.length }, ?_, ?_, ?_, ?_⟩
  · rw [Poseidon.full_round, h1, Option.some_bind, h2, Option.some_bind]
  · simpa [h2s, h1c] using hm
  · have : q2.constants = p.constants := by rw [h2c]; exact h1c
    simpa using this
  · have hlen : q2.state.length = 3 := by rw [h2s]; rw [show Poseidon.constants { q1 with state := q1.state.map (fun x => x ^ 5) } = q1.constants from rfl, h1c, hm]
    simp only [hlen]
    have : q2.pos = p.pos := by rw [h2pos]; exact h1pos
    omega

theorem partial_round_some {F : Type} [CommRing F] (p : Poseidon F)
    (hs : p.state.length = 3) (hm : p.constants.mds_matrix.length = 3)
    (hrow : ∀ row ∈ p.constants.mds_matrix, 3 ≤ row.length)
    (hk : p.pos + 3 ≤ p.constants.round_keys.length) :
    ∃ q, p.partial_round = some q ∧ q.state.length = 3 ∧ q.constants = p.constants ∧
      q.pos = p.pos + 3 := by
  have hguard : ∀ i < p.state.length, i + p.pos < p.constants.round_keys.length := by
    intro i hi
    rw [hs] at hi
    omega
  obtain ⟨q1, h1, h1s, h1c, h1pos⟩ := add_constants_some p hguard
  have h1s3 : q1.state.length = 3 := by rw [h1s, hs]
  obtain ⟨a, b, c0, habc⟩ := List.length_eq_three.mp h1s3
  obtain ⟨q2, h2, h2s, h2c, h2pos⟩ :=
    matrix_mul_some { q1 with state := a ^ 5 :: b :: c0 :: ([] : List F) }
      (by intro row hr
          simp only [List.length_cons, List.length_nil]
          refine hrow row ?_
          rwa [← h1c])
  refine ⟨{ q2 with pos := q2.pos + q2.state.length }, ?_, ?_, ?_, ?_⟩
  · have hstep : p.partial_round =
        (Poseidon.matrix_mul
          (Poseidon.mk (a ^ 5 :: b :: c0 :: ([] : List F)) q1.constants q1.pos)).bind
          (fun r => some (Poseidon.mk r.state r.constants (r.pos + r.state.length))) := by
      conv_lhs => rw [Poseidon.partial_round, h1, Option.some_bind, habc]
      rfl
    rw [hstep, h2, Option.some_bind]
  · simpa [h2s, h1c] using hm
  · have : q2.constants = p.constants := by rw [h2c]; exact h1c
    simpa using this
  · have hlen : q2.state.length = 3 := by
      rw [h2s]
      rw [show Poseidon.constants { q1 with state := a ^ 5 :: b :: c0 :: ([] : List F) } =
        q1.constants from rfl, h1c, hm]
    simp only [hlen]
    have : q2.pos = p.pos := by rw [h2pos]; exact h1pos
    omega

theorem full_round_none {F : Type} [CommRing F] (p : Poseidon F)
    (hs : p.state.length = 3)
    (hlt : p.constants.round_keys.length < p.pos + 3) : p.full_round = none := by
  have hng : ¬∀ i < p.state.length, i + p.pos < p.constants.round_keys.length := by
    intro hall
    have := hall 2 (by omega)
    omega
  rw [Poseidon.full_round, Poseidon.add_constants, if_neg hng]
  rfl

theorem partial_round_none {F : Type} [CommRing F] (p : Poseidon F)
    (hs : p.state.length = 3)
    (hlt : p.constants.round_keys.length < p.pos + 3) : p.partial_round = none := by
  have hng : ¬∀ i < p.state.length, i + p.pos < p.constants.round_keys.length := by
    intro hall
    have := hall 2 (by omega)
    omega
  rw [Poseidon.partial_round, Poseidon.add_constants, if_neg hng]
  rfl

theorem iterateOpt_rounds_some {F : Type} [CommRing F]
    (f : Poseidon F → Option (Poseidon F))
    (hf : ∀ p : Poseidon F, p.state.length = 3 → p.constants.mds_matrix.length = 3 →
      (∀ row ∈ p.constants.mds_matrix, 3 ≤ row.length) →
      p.pos + 3 ≤ p.constants.round_keys.length →
      ∃ q, f p = some q ∧ q.state.length = 3 ∧ q.constants = p.constants ∧
        q.pos = p.pos + 3)
    (k : Nat) :
    ∀ p : Poseidon F, p.state.length = 3 → p.constants.mds_matrix.length = 3 →
      (∀ row ∈ p.constants.mds_matrix, 3 ≤ row.length) →
      p.pos + 3 * k ≤ p.constants.round_keys.length →
      ∃ q, iterateOpt f k p = some q ∧ q.state.length = 3 ∧ q.constants = p.constants ∧
        q.pos = p.pos + 3 * k := by
  induction k with
  | zero =>
    intro p hs hm hrow _
    exact ⟨p, rfl, hs, rfl, by omega⟩
  | succ n ih =>
    intro p hs hm hrow hk
    obtain ⟨q, hq, hqs, hqc, hqpos⟩ := hf p hs hm hrow (by omega)
    obtain ⟨r, hr, hrs, hrc, hrpos⟩ := ih q hqs (by rw [hqc]; exact hm)
      (by rw [hqc]; exact hrow) (by rw [hqc]; omega)
    refine ⟨r, ?_, hrs, ?_, ?_⟩
    · rw [iterateOpt_succ, hq, Option.some_bind]
      exact hr
    · rw [hrc, hqc]
    · rw [hrpos, hqpos]
      omega

theorem iterateOpt_rounds_none {F : Type} [CommRing F]
    (f : Poseidon F → Option (Poseidon F))
    (hf : ∀ p : Poseidon F, p.state.length = 3 → p.constants.mds_matrix.length = 3 →
      (∀ row ∈ p.constants.mds_matrix, 3 ≤ row.length) →
      p.pos + 3 ≤ p.constants.round_keys.length →
      ∃ q, f p = some q ∧ q.state.length = 3 ∧ q.constants = p.constants ∧
        q.pos = p.pos + 3)
    (hffail : ∀ p : Poseidon F, p.state.length = 3 →
      p.constants.round_keys.length < p.pos + 3 → f p = none)
    (k : Nat) :
    ∀ p : Poseidon F, p.state.length = 3 → p.constants.mds_matrix.length = 3 →
      (∀ row ∈ p.constants.mds_matrix, 3 ≤ row.length) → 1 ≤ k →
      p.constants.round_keys.length < p.pos + 3 * k →
      iterateOpt f k p = none := by
  induction k with
  | zero =>
    intro p _ _ _ h1 _
    omega
  | succ n ih =>
    intro p hs hm hrow _ hlt
    by_cases hc : p.pos + 3 ≤ p.constants.round_keys.length
    · obtain ⟨q, hq, hqs, hqc, hqpos⟩ := hf p hs hm hrow hc
      have hn1 : 1 ≤ n := by omega
      have hrest : iterateOpt f n q = none := ih q hqs (by rw [hqc]; exact hm)
        (by rw [hqc]; exact hrow) hn1 (by rw [hqc]; omega)
      rw [iterateOpt_succ, hq, Option.some_bind, hrest]
    · have hfp := hffail p hs (by omega)
      rw [iterateOpt_succ, hfp]
      rfl

theorem permute_rounds_some {F : Type} [CommRing F] (p : Poseidon F)
    (heven : p.constants.num_full_rounds % 2 = 0)
    (hs : p.state.length = 3) (hm : p.constants.mds_matrix.length = 3)
    (hrow : ∀ row ∈ p.constants.mds_matrix, 3 ≤ row.length)
    (hk : p.pos + 3 * (p.constants.num_full_rounds + p.constants.num_partial_rounds) ≤
      p.constants.round_keys.length) :
    ∃ q, p.permute = some q ∧ q.constants = p.constants ∧ q.state.length = 3 ∧
      q.pos = p.pos + 3 * (p.constants.num_full_rounds + p.constants.num_partial_rounds) := by
  obtain ⟨q1, h1, h1s, h1c, h1pos⟩ :=
    iterateOpt_rounds_some Poseidon.full_round full_round_some
      (p.constants.num_full_rounds / 2) p hs hm hrow (by omega)
  obtain ⟨q2, h2, h2s, h2c, h2pos⟩ :=
    iterateOpt_rounds_some Poseidon.partial_round partial_round_some
      q1.constants.num_partial_rounds q1 h1s (by rw [h1c]; exact hm)
      (by rw [h1c]; exact hrow) (by rw [h1c]; omega)
  obtain ⟨q3, h3, h3s, h3c, h3pos⟩ :=
    iterateOpt_rounds_some Poseidon.full_round full_round_some
      (p.constants.num_full_rounds / 2) q2 h2s
      (by rw [h2c, h1c]; exact hm) (by rw [h2c, h1c]; exact hrow)
      (by rw [h2c, h1c]
          rw [h1c] at h2pos
          omega)
  refine ⟨q3, ?_, ?_, h3s, ?_⟩
  · rw [permute_unfold, h1, Option.some_bind, h2, Option.some_bind]
    exact h3
  · rw [h3c, h2c, h1c]
  · rw [h3pos, h2pos, h1pos, h1c]
    omega

theorem permute_rounds_none {F : Type} [CommRing F] (p : Poseidon F)
    (heven : p.constants.num_full_rounds % 2 = 0)
    (hs : p.state.length = 3) (hm : p.constants.mds_matrix.length = 3)
    (hrow : ∀ row ∈ p.constants.mds_matrix, 3 ≤ row.length)
    (hT : 1 ≤ p.constants.num_full_rounds + p.constants.num_partial_rounds)
    (hlt : p.constants.round_keys.length <
      p.pos + 3 * (p.constants.num_full_rounds + p.constants.num_partial_rounds)) :
    p.permute = none := by
  by_cases hA : p.constants.round_keys.length < p.pos + 3 * (p.constants.num_full_rounds / 2)
  · by_cases hfh : 1 ≤ p.constants.num_full_rounds / 2
    · have h1 := iterateOpt_rounds_none Poseidon.full_round full_round_some full_round_none
        (p.constants.num_full_rounds / 2) p hs hm hrow hfh hA
      rw [permute_unfold, h1]
      rfl
    · have hF0 : p.constants.num_full_rounds = 0 := by omega
      have hP1 : 1 ≤ p.constants.num_partial_rounds := by omega
      have h2 := iterateOpt_rounds_none Poseidon.partial_round partial_round_some
        partial_round_none p.constants.num_partial_rounds p hs hm hrow hP1 (by omega)
      have hfh0 : p.constants.num_full_rounds / 2 = 0 := by omega
      rw [permute_unfold, hfh0, iterateOpt_zero, Option.some_bind, h2]
      rfl
  · push_neg at hA
    obtain ⟨q1, h1, h1s, h1c, h1pos⟩ :=
      iterateOpt_rounds_some Poseidon.full_round full_round_some
        (p.constants.num_full_rounds / 2) p hs hm hrow hA
    by_cases hB : q1.constants.round_keys.length <
        q1.pos + 3 * q1.constants.num_partial_rounds
    · by_cases hP : 1 ≤ q1.constants.num_partial_rounds
      · have h2 := iterateOpt_rounds_none Poseidon.partial_round partial_round_some
          partial_round_none q1.constants.num_partial_rounds q1 h1s
          (by rw [h1c]; exact hm) (by rw [h1c]; exact hrow) hP hB
        rw [permute_unfold, h1, Option.some_bind, h2]
        rfl
      · have hP0 : q1.constants.num_partial_rounds = 0 := by omega
        have hP0p : p.constants.num_partial_rounds = 0 := by rw [← h1c]; exact hP0
        have hfh1 : 1 ≤ p.constants.num_full_rounds / 2 := by omega
        have h3 := iterateOpt_rounds_none Poseidon.full_round full_round_some
          full_round_none (p.constants.num_full_rounds / 2) q1 h1s
          (by rw [h1c]; exact hm) (by rw [h1c]; exact hrow) hfh1
          (by rw [h1c]
              rw [h1c] at hB
              rw [hP0p] at hB
              omega)
        rw [permute_unfold, h1, Option.some_bind, hP0, iterateOpt_zero,
          Option.some_bind, h3]
    · push_neg at hB
      obtain ⟨q2, h2, h2s, h2c, h2pos⟩ :=
        iterateOpt_rounds_some Poseidon.partial_round partial_round_some
          q1.constants.num_partial_rounds q1 h1s (by rw [h1c]; exact hm)
          (by rw [h1c]; exact hrow) hB
      have hfh1 : 1 ≤ p.constants.num_full_rounds / 2 := by
        rw [h1c] at hB
        omega
      have h3 := iterateOpt_rounds_none Poseidon.full_round full_round_some
        full_round_none (p.constants.num_full_rounds / 2) q2 h2s
        (by rw [h2c, h1c]; exact hm) (by rw [h2c, h1c]; exact hrow) hfh1
        (by rw [h2c, h1c]
            rw [h1c] at h2pos hB
            omega)
      rw [permute_unfold, h1, Option.some_bind, h2, Option.some_bind, h3]

/- ## Claim theorems (third group) -/

/-- C2: on a well-formed constants table (even full-round count, 3-wide MDS
matrix, at least `3 * (full + partial)` round keys) a single `permute` from
`pos = 0` succeeds — running `full/2` full rounds, the partial rounds, then
`full/2` full rounds, each advancing the key cursor by exactly 3 — and leaves
`pos = 3 * (full + partial)`: every round key up to that index is consumed
sequentially, none reused or skipped. -/
theorem c2_permute_consumes_all_round_keys {F : Type} [CommRing F] (p : Poseidon F)
    (heven : p.constants.num_full_rounds % 2 = 0)
    (hs : p.state.length = 3) (hm : p.constants.mds_matrix.length = 3)
    (hrow : ∀ row ∈ p.constants.mds_matrix, 3 ≤ row.length)
    (hpos : p.pos = 0)
    (hk : 3 * (p.constants.num_full_rounds + p.constants.num_partial_rounds) ≤
      p.constants.round_keys.length) :
    ∃ q, p.permute = some q ∧ q.constants = p.constants ∧ q.state.length = 3 ∧
      q.pos = 3 * (p.constants.num_full_rounds + p.constants.num_partial_rounds) := by
  obtain ⟨q, hq, hqc, hqs, hqpos⟩ := permute_rounds_some p heven hs hm hrow (by omega)
  exact ⟨q, hq, hqc, hqs, by omega⟩

/-- C2 witness: the concrete 2-full/1-partial table over `ZMod 101` with
exactly 9 round keys is consumed in full by one permutation. -/
theorem c2_witness :
    ∃ q, Poseidon.permute exPoseidon = some q ∧ q.constants = exPoseidon.constants ∧
      q.state.length = 3 ∧
      q.pos = 3 * (exPoseidon.constants.num_full_rounds +
        exPoseidon.constants.num_partial_rounds) :=
  c2_permute_consumes_all_round_keys exPoseidon (by decide) (by decide) (by decide)
    (by decide) (by decide) (by decide)

/-- C9: `hash` never resets the key cursor: a first `hash` (from `pos = 0`,
with enough keys for one permutation) leaves `pos = 3 * (full + partial)`; a
second `hash` on the same instance starts its key reads at that cursor, and
when the table holds fewer than twice `3 * (full + partial)` keys it reaches
the out-of-bounds branch (`none`) instead of reusing keys from position 0.
Only the sponge's private permute wrapper resets the cursor to 0. -/
theorem c9_hash_leaves_key_cursor_advanced {F : Type} [CommRing F] (p : Poseidon F)
    (input input2 : List F)
    (heven : p.constants.num_full_rounds % 2 = 0)
    (hm : p.constants.mds_matrix.length = 3)
    (hrow : ∀ row ∈ p.constants.mds_matrix, 3 ≤ row.length)
    (hpos : p.pos = 0)
    (hin : input.length = 2) (hin2 : input2.length = 2)
    (hk1 : 3 * (p.constants.num_full_rounds + p.constants.num_partial_rounds) ≤
      p.constants.round_keys.length)
    (hk2 : p.constants.round_keys.length <
      2 * (3 * (p.constants.num_full_rounds + p.constants.num_partial_rounds))) :
    ∃ d q, p.hash input = some (d, q) ∧
      q.pos = 3 * (p.constants.num_full_rounds + p.constants.num_partial_rounds) ∧
      q.hash input2 = none ∧
      ∀ (s t : PoseidonSponge F), PoseidonSponge.permute s = some t →
        t.poseidon.pos = 0 := by
  have hs1 : (Poseidon.mk ((3 : F) :: input) p.constants p.pos).state.length = 3 := by
    simp [hin]
  obtain ⟨q, hq, hqc0, hqs, hqpos0⟩ := permute_rounds_some
    (Poseidon.mk ((3 : F) :: input) p.constants p.pos) heven hs1 hm hrow
    (by show p.pos + 3 * (p.constants.num_full_rounds + p.constants.num_partial_rounds) ≤
          p.constants.round_keys.length
        omega)
  have hqc : q.constants = p.constants := hqc0
  have hqpos : q.pos =
      p.pos + 3 * (p.constants.num_full_rounds + p.constants.num_partial_rounds) := hqpos0
  have hget : q.state.get? 1 = some (q.state.get ⟨1, by omega⟩) :=
    List.get?_eq_get (by omega)
  refine ⟨q.state.get ⟨1, by omega⟩, q, ?_, ?_, ?_, ?_⟩
  · rw [hash_unfold, hq, Option.some_bind, hget, Option.map_some']
  · omega
  · have hT : 1 ≤ p.constants.num_full_rounds + p.constants.num_partial_rounds := by
      omega
    have hperm2 := permute_rounds_none
      (Poseidon.mk ((3 : F) :: input2) q.constants q.pos)
      (by show q.constants.num_full_rounds % 2 = 0
          rw [hqc]; exact heven)
      (by simp [hin2])
      (by show q.constants.mds_matrix.length = 3
          rw [hqc]; exact hm)
      (by show ∀ row ∈ q.constants.mds_matrix, 3 ≤ row.length
          rw [hqc]; exact hrow)
      (by show 1 ≤ q.constants.num_full_rounds + q.constants.num_partial_rounds
          rw [hqc]; exact hT)
      (by show q.constants.round_keys.length <
            q.pos + 3 * (q.constants.num_full_rounds + q.constants.num_partial_rounds)
          rw [hqc]; omega)
    rw [hash_unfold, hperm2]
    rfl
  · intro s t h
    exact (sponge_permute_fields s t h).2.2.2.2.2

/-- C9 witness: over `ZMod 101` with the 9-key table, one `hash` succeeds and
leaves `pos = 9`; a second `hash` on the same instance fails on key indexing. -/
theorem c9_witness :
    ∃ d q, Poseidon.hash exPoseidon [1, 2] = some (d, q) ∧
      q.pos = 3 * (exPoseidon.constants.num_full_rounds +
        exPoseidon.constants.num_partial_rounds) ∧
      Poseidon.hash q [3, 4] = none ∧
      ∀ (s t : PoseidonSponge (ZMod 101)), PoseidonSponge.permute s = some t →
        t.poseidon.pos = 0 :=
  c9_hash_leaves_key_cursor_advanced exPoseidon [1, 2] [3, 4] (by decide) (by decide)
    (by decide) (by decide) (by decide) (by decide) (by decide) (by decide)
